import Mathlib

/-!
Verification of the seaweedfs-sdk-go data-transfer core.

Shallow embedding of the parts of the SDK the specification's claims are
about, translated from the Go source:

* `NormalizePath`            — pkg/seaweedfs/util.go, lines 137-144
* `ShouldRetryUpload`        — internal/policy/policy.go, lines 40-71
* `uploadLoop` / `UploadLarge` — pkg/seaweedfs/fsops.go, lines 503-580
* `dcStart` / `dcEnd`        — pkg/seaweedfs/download.go, lines 181-202
* `DownloadConcurrent`       — pkg/seaweedfs/download.go, lines 143-179
* `backoffSleep` / `jitteredSleep` — pkg/seaweedfs/fsops.go, lines 556-569
* `listGo` / `ListAll`       — pkg/seaweedfs/fsops.go, lines 294-340

Strings are modelled as `List Char` where character-level reasoning is
needed, machine integers as `Nat`/`Int` (all quantities involved are far
from the int64 range in every claim considered), durations as `Nat`
(nanosecond counts) and the float64 jitter arithmetic over `ℚ`.
-/

namespace SeaweedSdk

/-! ## Path normalisation (pkg/seaweedfs/util.go 137-144)

```go
func NormalizePath(p string) string {
    p = strings.ReplaceAll(p, "\\", "/")
    p = "/" + strings.TrimLeft(p, "/")
    for strings.Contains(p, "//") {
        p = strings.ReplaceAll(p, "//", "/")
    }
    return p
}
```
-/

/-- `strings.ReplaceAll(p, "\\", "/")`: the pattern is a single character,
so the pass is a character map. -/
def replaceBackslash (p : List Char) : List Char :=
  p.map fun c => if c = '\\' then '/' else c

/-- One `strings.ReplaceAll(p, "//", "/")` pass: scans left to right,
replacing non-overlapping occurrences of `//` by `/`. -/
def replaceDoubleSlash : List Char → List Char
  | [] => []
  | [c] => [c]
  | c1 :: c2 :: rest =>
    if c1 = '/' ∧ c2 = '/' then '/' :: replaceDoubleSlash rest
    else c1 :: replaceDoubleSlash (c2 :: rest)

/-- `strings.Contains(p, "//")`: the string has two adjacent slashes. -/
def containsDoubleSlash : List Char → Bool
  | [] => false
  | [_] => false
  | c1 :: c2 :: rest =>
    if c1 = '/' ∧ c2 = '/' then true
    else containsDoubleSlash (c2 :: rest)

/-- A replacement pass never lengthens the string (termination measure for
the source's `for strings.Contains(p, "//")` loop). -/
theorem replaceDoubleSlash_length_le :
    ∀ p : List Char, (replaceDoubleSlash p).length ≤ p.length
  | [] => by simp [replaceDoubleSlash]
  | [c] => by simp [replaceDoubleSlash]
  | c1 :: c2 :: rest => by
    by_cases h : c1 = '/' ∧ c2 = '/'
    · have ih := replaceDoubleSlash_length_le rest
      simp only [replaceDoubleSlash, if_pos h, List.length_cons]
      omega
    · have ih := replaceDoubleSlash_length_le (c2 :: rest)
      simp only [replaceDoubleSlash, if_neg h, List.length_cons] at ih ⊢
      omega

/-- When the string still contains `//`, a replacement pass strictly
shortens it: the source's collapsing loop terminates. -/
theorem replaceDoubleSlash_length_lt :
    ∀ p : List Char, containsDoubleSlash p = true →
      (replaceDoubleSlash p).length < p.length
  | [] => by simp [containsDoubleSlash]
  | [c] => by simp [containsDoubleSlash]
  | c1 :: c2 :: rest => by
    intro hc
    by_cases h : c1 = '/' ∧ c2 = '/'
    · have := replaceDoubleSlash_length_le rest
      simp only [replaceDoubleSlash, if_pos h, List.length_cons]
      omega
    · rw [containsDoubleSlash, if_neg h] at hc
      have := replaceDoubleSlash_length_lt (c2 :: rest) hc
      simp only [replaceDoubleSlash, if_neg h, List.length_cons] at this ⊢
      omega

/-- The `for strings.Contains(p, "//") { p = strings.ReplaceAll(p, "//", "/") }`
loop of `NormalizePath` (util.go 140-142). -/
def collapseSlashes (p : List Char) : List Char :=
  if h : containsDoubleSlash p then collapseSlashes (replaceDoubleSlash p) else p
termination_by p.length
decreasing_by exact replaceDoubleSlash_length_lt p h

/-- `NormalizePath` (util.go 137-144): map backslashes to slashes, force a
single leading slash (`"/" + strings.TrimLeft(p, "/")`), then collapse all
remaining double slashes. -/
def NormalizePath (p : List Char) : List Char :=
  collapseSlashes ('/' :: (replaceBackslash p).dropWhile (fun c => c == '/'))

/-! ## Retry classifier (internal/policy/policy.go 40-71)

`ShouldRetryUpload` inspects the error: nil → false; context
cancellation/deadline → false; an error exposing `StatusCode() int` with a
4xx code → true only for 408/429; otherwise (network errors, 5xx codes,
anything unclassified) the function falls through to `return true`. -/

/-- The failure categories `ShouldRetryUpload` distinguishes. An error
carrying an HTTP status outside 400-499 falls through the status branch in
the Go code and reaches the final `return true`, exactly as `httpStatus`
with such a code does here. -/
inductive UploadErrKind where
  | ctxCanceled
  | ctxDeadlineExceeded
  | httpStatus (code : Nat)
  | network
  | other

/-- `policy.ShouldRetryUpload` (policy.go 40-71); `none` models a nil error. -/
def ShouldRetryUpload : Option UploadErrKind → Bool
  | none => false
  | some .ctxCanceled => false
  | some .ctxDeadlineExceeded => false
  | some (.httpStatus code) =>
    if 400 ≤ code ∧ code < 500 then code == 408 || code == 429
    else true
  | some .network => true
  | some .other => true

/-! ## Chunked upload engine (pkg/seaweedfs/fsops.go 503-580)

The loop reads `readSize = min(chunkSize, size-uploaded)` bytes with
`io.ReadFull`, aborts only on a read error that is neither `io.EOF` nor
`io.ErrUnexpectedEOF`, breaks (successfully) on a zero-byte read, uploads
the chunk, and advances `uploaded` by the bytes read. The source stream is
modelled by the number `avail` of bytes it yields before EOF, and the chunk
upload call is taken on its success path (claims C1 and C9 both condition
on every chunk upload succeeding; the retry machinery is covered by C5). -/

/-- Read errors a bounded stream can produce for `io.ReadFull`. -/
inductive ReadErr where
  | eofErr
  | unexpectedEofErr

/-- `io.ReadFull(r, buf[:readSize])` against a stream with `avail` bytes
left: returns `min readSize avail` bytes, with nil error on a full read,
`io.EOF` on an empty read and `io.ErrUnexpectedEOF` on a short one. -/
def readFull (readSize avail : Nat) : Nat × Option ReadErr :=
  (min readSize avail,
    if min readSize avail = readSize then none
    else if min readSize avail = 0 then some .eofErr
    else some .unexpectedEofErr)

/-- The abort condition of fsops.go line 519:
`err != nil && err != io.EOF && err != io.ErrUnexpectedEOF`. -/
def isFatalReadErr : Option ReadErr → Bool
  | none => false
  | some .eofErr => false
  | some .unexpectedEofErr => false

/-- Result of the upload loop: success carries the list of
`(offset, bytes sent)` chunk upload attempts, in order. -/
inductive UploadOutcome where
  | ok (chunks : List (Nat × Nat))
  | readFailure
deriving DecidableEq

/-- The `for uploaded < size` loop of `UploadLarge` (fsops.go 506-578) on
the path where every chunk upload call succeeds. -/
def uploadLoop (size chunkSize uploaded avail : Nat) : UploadOutcome :=
  if h : uploaded < size then
    if isFatalReadErr (readFull (min chunkSize (size - uploaded)) avail).2 then
      .readFailure
    else if h0 : (readFull (min chunkSize (size - uploaded)) avail).1 = 0 then
      .ok []
    else
      match uploadLoop size chunkSize
          (uploaded + (readFull (min chunkSize (size - uploaded)) avail).1)
          (avail - (readFull (min chunkSize (size - uploaded)) avail).1) with
      | .ok rest =>
        .ok ((uploaded, (readFull (min chunkSize (size - uploaded)) avail).1) :: rest)
      | .readFailure => .readFailure
  else .ok []
termination_by size - uploaded
decreasing_by
  simp only [readFull] at h0 ⊢
  omega

/-- `UploadLarge` for `size`/`chunkSize` against a source yielding `avail`
bytes, starting at `uploaded = 0` (fsops.go 503-580). -/
def UploadLarge (size chunkSize avail : Nat) : UploadOutcome :=
  uploadLoop size chunkSize 0 avail

/-- The chunk list `[(o₀,n₀), (o₁,n₁), …]` is a gapless, non-overlapping
partition of `[lo, hi)`: each chunk starts where the previous one ended,
every chunk is non-empty, and the last one ends exactly at `hi`. -/
def ChunksPartition : List (Nat × Nat) → Nat → Nat → Prop
  | [], lo, hi => lo = hi
  | (off, n) :: rest, lo, hi => off = lo ∧ 0 < n ∧ ChunksPartition rest (lo + n) hi

/-- Total number of bytes sent by a list of chunk uploads. -/
def sentBytes (chunks : List (Nat × Nat)) : Nat :=
  (chunks.map Prod.snd).sum

/-! ## Concurrent range download partitioning (pkg/seaweedfs/download.go 181-202)

```go
chunkSize := size / int64(chunkCount)
...
start := int64(i) * chunkSize
end := start + chunkSize - 1
if i == chunkCount-1 { end = size - 1 }
```
-/

/-- `chunkSize := size / int64(chunkCount)` (download.go 181). On the
non-negative sizes the engine works with, Go's truncating division agrees
with `Int` division. -/
def dcChunkSize (size : Int) (chunkCount : Nat) : Int :=
  size / (chunkCount : Int)

/-- `start := int64(i) * chunkSize` (download.go 198). -/
def dcStart (size : Int) (chunkCount i : Nat) : Int :=
  (i : Int) * dcChunkSize size chunkCount

/-- `end := start + chunkSize - 1`, with the last chunk forced to
`size - 1` (download.go 199-202). -/
def dcEnd (size : Int) (chunkCount i : Nat) : Int :=
  if i = chunkCount - 1 then size - 1
  else dcStart size chunkCount i + dcChunkSize size chunkCount - 1

/-- The spec sentence for C3 reads `chunk i spans [i*S/N, (i+1)*S/N - 1]`
with integer division; under ordinary precedence that is the division of
the product, `(i*S)/N`, which this definition transcribes for comparison
with `dcStart`/`dcEnd`. -/
def specC3Start (size : Int) (chunkCount i : Nat) : Int :=
  ((i : Int) * size) / (chunkCount : Int)

/-- The spec's end formula for C3, `(i+1)*S/N - 1`, last end forced to
`S-1`, read with ordinary precedence. -/
def specC3End (size : Int) (chunkCount i : Nat) : Int :=
  if i = chunkCount - 1 then size - 1
  else (((i : Int) + 1) * size) / (chunkCount : Int) - 1

/-! ## DownloadConcurrent dispatch (pkg/seaweedfs/download.go 136-179)

The engine clamps the requested chunk count to `policy.MaxDownloadChunks`,
stats the remote file, and falls back to one sequential whole-file download
when `chunkCount <= 1 || size < int64(chunkCount*5<<20)`. The collaborators
(stat, the sequential download, each range download) are abstracted by an
environment recording their outcomes; the function returns the outcome map
as an association list in the order the map is filled. -/

/-- Outcomes of the external calls a `DownloadConcurrent` run makes. -/
structure DownloadEnv where
  statResult : Except String Int
  seqOutcome : Option String
  chunkOutcome : Nat → Option String

/-- `if chunkCount > s.policy.MaxDownloadChunks { chunkCount = s.policy.MaxDownloadChunks }`
(download.go 143-145). -/
def clampChunks (maxChunks : Nat) (chunkCount : Int) : Int :=
  if chunkCount > (maxChunks : Int) then (maxChunks : Int) else chunkCount

/-- `DownloadConcurrent` (download.go 136-179): stat failure reports under
the destination path; the fallback branch performs one sequential download
into `dstPath`; the concurrent branch produces one outcome per range, keyed
by the part file `dstPath.partN`. -/
def DownloadConcurrent (maxChunks : Nat) (chunkCount : Int) (dstPath : String)
    (env : DownloadEnv) : List (String × Option String) :=
  match env.statResult with
  | .error e => [(dstPath, some ("stat failed: " ++ e))]
  | .ok size =>
    if clampChunks maxChunks chunkCount ≤ 1 ∨
        size < clampChunks maxChunks chunkCount * (5 * 2 ^ 20) then
      [(dstPath, env.seqOutcome)]
    else
      (List.range (clampChunks maxChunks chunkCount).toNat).map fun i =>
        (dstPath ++ ".part" ++ toString i, env.chunkOutcome i)

/-! ## Backoff with jitter (pkg/seaweedfs/fsops.go 556-569)

```go
sleep := s.policy.BackoffBase * (1 << attempt)
if sleep > s.policy.BackoffMax { sleep = s.policy.BackoffMax }
sleep = time.Duration(float64(sleep) * (0.5 + rand.Float64()/2))
```
Durations are nanosecond counts (`Nat`); the float64 jitter arithmetic is
modelled over `ℚ` with `rand.Float64()` an arbitrary rational in `[0, 1)`. -/

/-- The pre-jitter delay for retry `attempt`: `BackoffBase * (1 << attempt)`
clamped to `BackoffMax` (fsops.go 559-562). -/
def backoffSleep (base maxBackoff attempt : Nat) : Nat :=
  if base * 2 ^ attempt > maxBackoff then maxBackoff else base * 2 ^ attempt

/-- `float64(sleep) * (0.5 + rand.Float64()/2)` (fsops.go 563), with `r`
the drawn random value. -/
def jitteredSleep (sleep : Nat) (r : ℚ) : ℚ :=
  (sleep : ℚ) * (1 / 2 + r / 2)

/-! ## Paginated listing walker (pkg/seaweedfs/fsops.go 294-340)

`List` starts at cursor `""` and repeatedly calls `ListPaged`; each page
response carries entries, a new cursor (`Last`) and a `HasMore` flag. The
remote collaborator `ListPaged` is modelled as a function from the cursor
to a page response (the directory, filters and page size are fixed for one
walk). The walker appends entries, stops successfully when `HasMore` is
false, aborts when the cursor did not advance, and aborts when the page
count reaches `policy.MaxListPages`. The second component counts the page
requests issued. -/

/-- A directory entry as produced by the listing walker (types.go). -/
structure SeaweedEntry where
  name : String
  isDir : Bool
  size : Int
  mime : String
  mtime : String

/-- A single page of a listing (types.go `ListPagedResult`). -/
structure ListPagedResult where
  entries : List SeaweedEntry
  last : String
  hasMore : Bool

/-- The failures a listing walk can end with. -/
inductive ListErr where
  | pageFailed
  | protocolViolation
  | resourceExhaustion
deriving DecidableEq

/-- The `for` loop of `List` (fsops.go 306-337): one iteration per page
request, returning the aggregated entries or the aborting failure, plus the
number of page requests issued. -/
def listGo (server : String → Except ListErr ListPagedResult) (maxPages : Nat)
    (last : String) (pageCount : Nat) (acc : List SeaweedEntry) :
    Except ListErr (List SeaweedEntry) × Nat :=
  match server last with
  | .error e => (.error e, 1)
  | .ok page =>
    if page.hasMore = false then (.ok (acc ++ page.entries), 1)
    else if page.last = last then (.error .protocolViolation, 1)
    else if _h : maxPages ≤ pageCount + 1 then (.error .resourceExhaustion, 1)
    else
      let r := listGo server maxPages page.last (pageCount + 1) (acc ++ page.entries)
      (r.1, r.2 + 1)
termination_by maxPages - pageCount

/-- `List` (fsops.go 294-340): the walk from the empty cursor with page
counter 0 and no accumulated entries. -/
def ListAll (server : String → Except ListErr ListPagedResult) (maxPages : Nat) :
    Except ListErr (List SeaweedEntry) × Nat :=
  listGo server maxPages "" 0 []

/-- Mock page for the stall scenario: a fixed cursor with has-more set. -/
def c6MockPage : ListPagedResult :=
  { entries := [], last := "stuck", hasMore := true }

/-- Mock remote store whose cursor never changes while has-more is true. -/
def c6MockServer : String → Except ListErr ListPagedResult :=
  fun _ => .ok c6MockPage

/-- Mock remote store that always has more pages and always advances the
cursor (as the first `MaxListPages` pages of any sufficiently large
directory do). -/
def c7MockServer : String → Except ListErr ListPagedResult :=
  fun cur => .ok { entries := [], last := cur ++ "x", hasMore := true }

/-- Environment for the small-download witness: stat reports 100 bytes and
the sequential download succeeds. -/
def c8Env : DownloadEnv :=
  { statResult := .ok 100, seqOutcome := none, chunkOutcome := fun _ => none }

/-! ## Theorems -/

/-- C4: `ShouldRetryUpload` classifies every failure as the spec's retry
taxonomy requires: false for context cancellation/deadline, true for a 4xx
HTTP status only when it is 408 or 429, true for network errors and for
every other non-nil failure (5xx or unclassified). -/
theorem C4_shouldRetryUpload_taxonomy :
    ShouldRetryUpload none = false
    ∧ ShouldRetryUpload (some .ctxCanceled) = false
    ∧ ShouldRetryUpload (some .ctxDeadlineExceeded) = false
    ∧ (∀ code : Nat, 400 ≤ code → code < 500 →
        (ShouldRetryUpload (some (.httpStatus code)) = true ↔ code = 408 ∨ code = 429))
    ∧ (∀ code : Nat, code < 400 ∨ 500 ≤ code →
        ShouldRetryUpload (some (.httpStatus code)) = true)
    ∧ ShouldRetryUpload (some .network) = true
    ∧ ShouldRetryUpload (some .other) = true := by
  refine ⟨rfl, rfl, rfl, ?_, ?_, rfl, rfl⟩
  · intro code h1 h2
    simp only [ShouldRetryUpload, if_pos (⟨h1, h2⟩ : 400 ≤ code ∧ code < 500)]
    simp
  · intro code h
    simp only [ShouldRetryUpload]
    rw [if_neg (by omega)]

/-- C5: the pre-jitter backoff delay for attempt `k` equals
`min(backoffBase * 2^k, backoffMax)`, the jitter multiplier `0.5 + r/2`
drawn from `r ∈ [0, 1)` always lies in `[0.5, 1.0]`, and the jittered delay
lies between half of and the full pre-jitter delay. -/
theorem C5_backoff_delay_and_jitter (base maxBackoff k : Nat) (r : ℚ)
    (h0 : 0 ≤ r) (h1 : r < 1) :
    backoffSleep base maxBackoff k = min (base * 2 ^ k) maxBackoff
    ∧ 1 / 2 ≤ 1 / 2 + r / 2 ∧ 1 / 2 + r / 2 ≤ 1
    ∧ (backoffSleep base maxBackoff k : ℚ) / 2
        ≤ jitteredSleep (backoffSleep base maxBackoff k) r
    ∧ jitteredSleep (backoffSleep base maxBackoff k) r
        ≤ (backoffSleep base maxBackoff k : ℚ) := by
  have hs : (0 : ℚ) ≤ (backoffSleep base maxBackoff k : ℚ) := Nat.cast_nonneg _
  refine ⟨?_, by linarith, by linarith, ?_, ?_⟩
  · unfold backoffSleep; split <;> omega
  · unfold jitteredSleep; nlinarith
  · unfold jitteredSleep; nlinarith

/-- C5 witness: the bounds at `base = 200`, `maxBackoff = 5000`, `k = 3`,
`r = 0`. -/
theorem C5_backoff_delay_and_jitter_witness :
    (0 : ℚ) ≤ 0 ∧ (0 : ℚ) < 1
    ∧ (backoffSleep 200 5000 3 = min (200 * 2 ^ 3) 5000
        ∧ 1 / 2 ≤ 1 / 2 + (0 : ℚ) / 2 ∧ 1 / 2 + (0 : ℚ) / 2 ≤ 1
        ∧ (backoffSleep 200 5000 3 : ℚ) / 2 ≤ jitteredSleep (backoffSleep 200 5000 3) 0
        ∧ jitteredSleep (backoffSleep 200 5000 3) 0 ≤ (backoffSleep 200 5000 3 : ℚ)) :=
  ⟨le_refl 0, by norm_num,
    C5_backoff_delay_and_jitter 200 5000 3 0 (le_refl 0) (by norm_num)⟩

/-- C3 counterexample: at `S = 15728645`, `N = 3` (a size on the real
multi-chunk path, `S ≥ N * 5 MiB`), the code's range differs from the
spec formula `[i*S/N, (i+1)*S/N - 1]`: chunk 1's end is 10485761 in the
code but 10485762 by the spec formula, and chunk 2's start is 10485762 in
the code but 10485763 by the spec formula. -/
theorem C3_spec_formula_cex :
    dcEnd 15728645 3 1 = 10485761
    ∧ specC3End 15728645 3 1 = 10485762
    ∧ ¬ dcEnd 15728645 3 1 = specC3End 15728645 3 1
    ∧ dcStart 15728645 3 2 = 10485762
    ∧ specC3Start 15728645 3 2 = 10485763 := by
  decide

/-- C3 amended: chunk `i` spans `[i*(S/N), (i+1)*(S/N) - 1]` — the chunk
width `S/N` is computed once by integer division and then multiplied — with
the last chunk's end forced to `S-1`. -/
theorem C3_downloadConcurrent_chunk_span (size : Int) (chunkCount i : Nat) :
    dcStart size chunkCount i = (i : Int) * (size / (chunkCount : Int))
    ∧ (i ≠ chunkCount - 1 →
        dcEnd size chunkCount i = ((i : Int) + 1) * (size / (chunkCount : Int)) - 1)
    ∧ (i = chunkCount - 1 → dcEnd size chunkCount i = size - 1) := by
  refine ⟨rfl, fun h => ?_, fun h => ?_⟩
  · simp only [dcEnd, if_neg h, dcStart, dcChunkSize]; ring
  · simp only [dcEnd, if_pos h]

/-- C8: whenever the clamped chunk count is at most 1 or the stat-reported
size is below `chunkCount * 5 MiB`, `DownloadConcurrent` performs the single
sequential download and returns a one-entry outcome map keyed by the
destination path. -/
theorem C8_download_small_fallback (maxChunks : Nat) (chunkCount : Int)
    (dstPath : String) (env : DownloadEnv) (size : Int)
    (hstat : env.statResult = .ok size)
    (hfb : clampChunks maxChunks chunkCount ≤ 1 ∨
        size < clampChunks maxChunks chunkCount * (5 * 2 ^ 20)) :
    DownloadConcurrent maxChunks chunkCount dstPath env = [(dstPath, env.seqOutcome)]
    ∧ (DownloadConcurrent maxChunks chunkCount dstPath env).length = 1
    ∧ (DownloadConcurrent maxChunks chunkCount dstPath env).map Prod.fst = [dstPath] := by
  have h : DownloadConcurrent maxChunks chunkCount dstPath env
      = [(dstPath, env.seqOutcome)] := by
    unfold DownloadConcurrent
    rw [hstat]
    exact if_pos hfb
  exact ⟨h, by rw [h]; rfl, by rw [h]; rfl⟩

/-- C8 witness: a 100-byte file requested with 4 chunks (clamped maximum
64) falls back to the single sequential download. -/
theorem C8_download_small_fallback_witness :
    c8Env.statResult = Except.ok 100
    ∧ (clampChunks 64 4 ≤ 1 ∨ (100 : Int) < clampChunks 64 4 * (5 * 2 ^ 20))
    ∧ (DownloadConcurrent 64 4 "file.bin" c8Env = [("file.bin", c8Env.seqOutcome)]
        ∧ (DownloadConcurrent 64 4 "file.bin" c8Env).length = 1
        ∧ (DownloadConcurrent 64 4 "file.bin" c8Env).map Prod.fst = ["file.bin"]) :=
  ⟨rfl, by decide,
    C8_download_small_fallback 64 4 "file.bin" c8Env 100 rfl (by decide)⟩

/-- `io.ReadFull` returns `min readSize avail` bytes. -/
theorem readFull_fst (a b : Nat) : (readFull a b).1 = min a b := rfl

/-- No read error the bounded stream produces trips the abort condition of
fsops.go line 519: `io.EOF` and `io.ErrUnexpectedEOF` are both excluded. -/
theorem isFatalReadErr_readFull (a b : Nat) :
    isFatalReadErr (readFull a b).2 = false := by
  simp only [readFull]
  split
  · rfl
  · split <;> rfl

/-- One iteration of the upload loop on a non-empty read: the read error is
never fatal, so the loop uploads the chunk and recurses past it. -/
theorem uploadLoop_step (size c uploaded avail : Nat) (h : uploaded < size)
    (hne : (readFull (min c (size - uploaded)) avail).1 ≠ 0) :
    uploadLoop size c uploaded avail =
      match uploadLoop size c
          (uploaded + (readFull (min c (size - uploaded)) avail).1)
          (avail - (readFull (min c (size - uploaded)) avail).1) with
      | .ok rest =>
        .ok ((uploaded, (readFull (min c (size - uploaded)) avail).1) :: rest)
      | .readFailure => .readFailure := by
  rw [uploadLoop, dif_pos h, isFatalReadErr_readFull, if_neg Bool.false_ne_true,
    dif_neg hne]

/-- On the success path with a stream that still holds the remaining
`size - uploaded` bytes, the upload loop succeeds and its chunk attempts
partition `[uploaded, size)`, with exactly `ceil((size-uploaded)/chunkSize)`
attempts. -/
theorem uploadLoop_full (size c uploaded avail : Nat) (hc : 0 < c)
    (h1 : uploaded ≤ size) (h2 : size - uploaded ≤ avail) :
    ∃ chunks, uploadLoop size c uploaded avail = .ok chunks
      ∧ ChunksPartition chunks uploaded size
      ∧ chunks.length = (size - uploaded + c - 1) / c := by
  rcases Nat.lt_or_ge uploaded size with h | h
  · have hfst : (readFull (min c (size - uploaded)) avail).1
        = min c (size - uploaded) := by
      rw [readFull_fst]; omega
    have hn0 : 0 < min c (size - uploaded) := by omega
    obtain ⟨chunks, hrec, hpart, hlen⟩ :=
      uploadLoop_full size c (uploaded + min c (size - uploaded))
        (avail - min c (size - uploaded)) hc (by omega) (by omega)
    refine ⟨(uploaded, min c (size - uploaded)) :: chunks, ?_, ⟨rfl, hn0, hpart⟩, ?_⟩
    · rw [uploadLoop_step size c uploaded avail h (by rw [readFull_fst]; omega),
        hfst, hrec]
    · simp only [List.length_cons, hlen]
      rcases le_or_lt c (size - uploaded) with hcase | hcase
      · have hm : min c (size - uploaded) = c := by omega
        rw [hm]
        have e2 : size - (uploaded + c) + c - 1 = size - uploaded - 1 := by omega
        have e3 : size - uploaded + c - 1 = (size - uploaded - 1) + c := by omega
        rw [e2, e3, Nat.add_div_right _ hc]
      · have hm : min c (size - uploaded) = size - uploaded := by omega
        rw [hm]
        have e2 : size - (uploaded + (size - uploaded)) + c - 1 = c - 1 := by omega
        have e4 : (c - 1) / c = 0 := Nat.div_eq_of_lt (by omega)
        have e3 : (size - uploaded + c - 1) / c = 1 := by
          apply Nat.div_eq_of_lt_le <;> omega
        rw [e2, e4, e3]
  · have heq : uploaded = size := by omega
    refine ⟨[], ?_, ?_, ?_⟩
    · rw [uploadLoop, dif_neg (by omega)]
    · simp only [ChunksPartition]
      exact heq
    · have e1 : size - uploaded + c - 1 = c - 1 := by omega
      simp [e1, Nat.div_eq_of_lt (show c - 1 < c by omega)]
termination_by size - uploaded
decreasing_by omega

/-- When the stream holds no more than the still-missing bytes, the loop
ends successfully (the zero-byte read breaks it) having sent exactly the
bytes the stream yielded. -/
theorem uploadLoop_sum (size c uploaded avail : Nat) (hc : 0 < c)
    (h2 : avail ≤ size - uploaded) :
    ∃ chunks, uploadLoop size c uploaded avail = .ok chunks
      ∧ sentBytes chunks = avail := by
  rcases Nat.lt_or_ge uploaded size with h | h
  · rcases Nat.eq_zero_or_pos avail with hz | hpos
    · subst hz
      have hread : readFull (min c (size - uploaded)) 0 = (0, some .eofErr) := by
        unfold readFull
        have hm : min (min c (size - uploaded)) 0 = 0 := by omega
        rw [hm, if_neg (by omega), if_pos rfl]
      refine ⟨[], ?_, by simp [sentBytes]⟩
      rw [uploadLoop, dif_pos h, hread]
      simp [isFatalReadErr]
    · have hn1 : 0 < min (min c (size - uploaded)) avail := by omega
      have hfst : (readFull (min c (size - uploaded)) avail).1
          = min (min c (size - uploaded)) avail := rfl
      obtain ⟨chunks, hrec, hsum⟩ :=
        uploadLoop_sum size c (uploaded + min (min c (size - uploaded)) avail)
          (avail - min (min c (size - uploaded)) avail) hc (by omega)
      refine ⟨(uploaded, min (min c (size - uploaded)) avail) :: chunks, ?_, ?_⟩
      · rw [uploadLoop_step size c uploaded avail h (by rw [readFull_fst]; omega),
          hfst, hrec]
      · simp only [sentBytes, List.map_cons, List.sum_cons] at hsum ⊢
        omega
  · have hz : avail = 0 := by omega
    refine ⟨[], ?_, by simp [sentBytes, hz]⟩
    rw [uploadLoop, dif_neg (by omega)]
termination_by size - uploaded
decreasing_by omega

/-- A partition's chunk offsets are strictly increasing. -/
theorem chain_of_partition :
    ∀ (chunks : List (Nat × Nat)) (lo hi : Nat), ChunksPartition chunks lo hi →
      List.Chain' (fun a b => a < b) (chunks.map Prod.fst)
  | [], _, _, _ => by simp
  | [(_, _)], _, _, _ => by simp
  | (o1, n1) :: (o2, n2) :: rest, lo, hi, hp => by
    obtain ⟨h1, h2, h3, h4, hp3⟩ := hp
    have ih := chain_of_partition ((o2, n2) :: rest) (lo + n1) hi ⟨h3, h4, hp3⟩
    simp only [List.map_cons] at ih ⊢
    rw [List.chain'_cons]
    exact ⟨by omega, ih⟩

/-- C1: on the success path (the stream yields exactly `totalSize` bytes
and every chunk upload succeeds), `UploadLarge` issues exactly
`ceil(totalSize/chunkSize)` chunk upload attempts whose offsets form a
strictly increasing, gapless, non-overlapping partition of
`[0, totalSize)`; `totalSize = 0` completes with zero chunks sent. -/
theorem C1_uploadLarge_success_partition (size chunkSize : Nat) (hc : 0 < chunkSize) :
    ∃ chunks, UploadLarge size chunkSize size = .ok chunks
      ∧ chunks.length = (size + chunkSize - 1) / chunkSize
      ∧ ChunksPartition chunks 0 size
      ∧ List.Chain' (fun a b => a < b) (chunks.map Prod.fst)
      ∧ (size = 0 → chunks = []) := by
  obtain ⟨chunks, hrun, hpart, hlen⟩ :=
    uploadLoop_full size chunkSize 0 size hc (Nat.zero_le _) (by omega)
  have hrun' : UploadLarge size chunkSize size = .ok chunks := hrun
  refine ⟨chunks, hrun', by simpa using hlen, hpart,
    chain_of_partition chunks 0 size hpart, ?_⟩
  intro h0
  subst h0
  rw [UploadLarge, uploadLoop, dif_neg (by omega)] at hrun'
  injection hrun' with hch
  exact hch.symm

/-- C1 witness: a 10-byte upload in 4-byte chunks issues 3 attempts
partitioning `[0, 10)`. -/
theorem C1_uploadLarge_success_partition_witness :
    0 < 4 ∧ ∃ chunks, UploadLarge 10 4 10 = .ok chunks
      ∧ chunks.length = (10 + 4 - 1) / 4
      ∧ ChunksPartition chunks 0 10
      ∧ List.Chain' (fun a b => a < b) (chunks.map Prod.fst)
      ∧ (10 = 0 → chunks = []) :=
  ⟨by decide, C1_uploadLarge_success_partition 10 4 (by decide)⟩

/-- C9 counterexample: declared size 10, chunk size 4, but the stream
yields only 7 bytes: `UploadLarge` returns success (nil error) having sent
7 < 10 bytes — not a read failure, contradicting the claim. -/
theorem C9_short_stream_cex :
    (∃ chunks, UploadLarge 10 4 7 = .ok chunks ∧ sentBytes chunks = 7)
    ∧ 7 < 10 ∧ UploadLarge 10 4 7 ≠ .readFailure := by
  obtain ⟨chunks, hrun, hsum⟩ := uploadLoop_sum 10 4 0 7 (by omega) (by omega)
  have hrun' : UploadLarge 10 4 7 = .ok chunks := hrun
  refine ⟨⟨chunks, hrun', hsum⟩, by omega, fun hcontra => ?_⟩
  rw [hrun'] at hcontra
  cases hcontra

/-- C9 amended: a source stream that yields fewer bytes than declared is
treated as end-of-stream, not as a read failure: the zero-byte read breaks
the loop and `UploadLarge` returns success after sending exactly the bytes
the stream yielded — the upload is silently truncated. -/
theorem C9_short_stream_truncates (size chunkSize avail : Nat) (hc : 0 < chunkSize)
    (hshort : avail < size) :
    ∃ chunks, UploadLarge size chunkSize avail = .ok chunks
      ∧ sentBytes chunks = avail := by
  obtain ⟨chunks, hrun, hsum⟩ := uploadLoop_sum size chunkSize 0 avail hc (by omega)
  exact ⟨chunks, hrun, hsum⟩

/-- C9 amended witness: declared size 12, chunk size 5, stream yields 9
bytes: success with exactly 9 bytes sent. -/
theorem C9_short_stream_truncates_witness :
    0 < 5 ∧ 9 < 12
    ∧ ∃ chunks, UploadLarge 12 5 9 = .ok chunks ∧ sentBytes chunks = 9 :=
  ⟨by decide, by decide, C9_short_stream_truncates 12 5 9 (by decide) (by decide)⟩

/-- A page whose cursor equals the previous cursor while has-more is set
aborts the walk with the protocol-violation failure, issuing no further
page request. -/
theorem listGo_stall (server : String → Except ListErr ListPagedResult)
    (maxPages : Nat) (last : String) (pageCount : Nat) (acc : List SeaweedEntry)
    (page : ListPagedResult) (hok : server last = .ok page)
    (hm : page.hasMore = true) (heq : page.last = last) :
    listGo server maxPages last pageCount acc = (.error .protocolViolation, 1) := by
  rw [listGo, hok]
  simp [hm, heq]

/-- A page with has-more set and an advancing cursor, while the page cap is
not yet reached, recurses into the next page, adding one page request. -/
theorem listGo_advance (server : String → Except ListErr ListPagedResult)
    (maxPages : Nat) (last : String) (pageCount : Nat) (acc : List SeaweedEntry)
    (page : ListPagedResult) (hok : server last = .ok page)
    (hm : page.hasMore = true) (hne : page.last ≠ last)
    (hcap : pageCount + 1 < maxPages) :
    listGo server maxPages last pageCount acc =
      ((listGo server maxPages page.last (pageCount + 1) (acc ++ page.entries)).1,
        (listGo server maxPages page.last (pageCount + 1) (acc ++ page.entries)).2 + 1) := by
  rw [listGo, hok]
  simp [hm, hne]
  intro hc
  exact absurd hc (by omega)

/-- A page with has-more set and an advancing cursor that brings the page
count up to the cap aborts with the resource-exhaustion failure. -/
theorem listGo_cap (server : String → Except ListErr ListPagedResult)
    (maxPages : Nat) (last : String) (pageCount : Nat) (acc : List SeaweedEntry)
    (page : ListPagedResult) (hok : server last = .ok page)
    (hm : page.hasMore = true) (hne : page.last ≠ last)
    (hcap : maxPages ≤ pageCount + 1) :
    listGo server maxPages last pageCount acc = (.error .resourceExhaustion, 1) := by
  rw [listGo, hok]
  simp [hm, hne, hcap]

/-- Against a store that always reports more pages and always advances the
cursor, the walk started below the cap ends in resource exhaustion after
exactly the remaining page budget. -/
theorem listGo_exhaust (server : String → Except ListErr ListPagedResult)
    (maxPages : Nat)
    (hadv : ∀ cur, ∃ page, server cur = .ok page ∧ page.hasMore = true ∧ page.last ≠ cur)
    (last : String) (pageCount : Nat) (acc : List SeaweedEntry)
    (hlt : pageCount < maxPages) :
    listGo server maxPages last pageCount acc
      = (.error .resourceExhaustion, maxPages - pageCount) := by
  obtain ⟨page, hok, hm, hne⟩ := hadv last
  rcases le_or_lt maxPages (pageCount + 1) with hcap | hcap
  · rw [listGo_cap server maxPages last pageCount acc page hok hm hne hcap]
    have h1 : maxPages - pageCount = 1 := by omega
    rw [h1]
  · rw [listGo_advance server maxPages last pageCount acc page hok hm hne hcap,
      listGo_exhaust server maxPages hadv page.last (pageCount + 1)
        (acc ++ page.entries) (by omega)]
    have h1 : maxPages - (pageCount + 1) + 1 = maxPages - pageCount := by omega
    simp [h1]
termination_by maxPages - pageCount

/-- C6: whenever a page response's new cursor equals the previous cursor
while its has-more flag is true, the walk aborts with the protocol-violation
failure on that very page (no further request); in particular a mocked
store whose cursor never changes while has-more is true terminates with the
protocol-violation failure within two page requests. -/
theorem C6_list_stall_aborts (server : String → Except ListErr ListPagedResult)
    (maxPages : Nat) (p : ListPagedResult)
    (hs : ∀ cur, server cur = .ok p) (hm : p.hasMore = true) (h2 : 2 ≤ maxPages) :
    (∀ (server2 : String → Except ListErr ListPagedResult) (maxPages2 : Nat)
        (last : String) (pageCount : Nat) (acc : List SeaweedEntry)
        (page : ListPagedResult), server2 last = .ok page → page.hasMore = true →
        page.last = last →
        listGo server2 maxPages2 last pageCount acc = (.error .protocolViolation, 1))
    ∧ (ListAll server maxPages).1 = .error .protocolViolation
    ∧ (ListAll server maxPages).2 ≤ 2 := by
  refine ⟨fun s2 m2 l pc acc pg hok hm2 heq => listGo_stall s2 m2 l pc acc pg hok hm2 heq,
    ?_⟩
  by_cases hl : p.last = ""
  · have h := listGo_stall server maxPages "" 0 [] p (hs "") hm hl
    exact ⟨by rw [ListAll, h], by rw [ListAll, h]; omega⟩
  · have hadv := listGo_advance server maxPages "" 0 [] p (hs "") hm hl (by omega)
    have hst := listGo_stall server maxPages p.last 1 ([] ++ p.entries) p (hs p.last) hm rfl
    constructor
    · rw [ListAll, hadv, hst]
    · rw [ListAll, hadv, hst]

/-- C6 witness: a store that always answers with the fixed cursor "stuck"
and has-more set, walked with the default page cap 1000. -/
theorem C6_list_stall_aborts_witness :
    (∀ (server2 : String → Except ListErr ListPagedResult) (maxPages2 : Nat)
        (last : String) (pageCount : Nat) (acc : List SeaweedEntry)
        (page : ListPagedResult), server2 last = Except.ok page → page.hasMore = true →
        page.last = last →
        listGo server2 maxPages2 last pageCount acc
          = (Except.error ListErr.protocolViolation, 1))
    ∧ (ListAll c6MockServer 1000).1 = Except.error ListErr.protocolViolation
    ∧ (ListAll c6MockServer 1000).2 ≤ 2 :=
  C6_list_stall_aborts c6MockServer 1000 c6MockPage (fun _ => rfl) rfl (by decide)

/-- Appending a character changes a string. -/
theorem append_x_ne (s : String) : s ++ "x" ≠ s := by
  intro h
  have hl := congrArg String.length h
  rw [String.length_append] at hl
  have hx : ("x" : String).length = 1 := rfl
  omega

/-- C7: against a directory whose listing keeps reporting has-more (with an
advancing cursor), the walk aborts with the resource-exhaustion failure
after exactly `maxPages` page requests. -/
theorem C7_list_page_ceiling (server : String → Except ListErr ListPagedResult)
    (maxPages : Nat)
    (hadv : ∀ cur, ∃ page, server cur = .ok page ∧ page.hasMore = true ∧ page.last ≠ cur)
    (h1 : 1 ≤ maxPages) :
    ListAll server maxPages = (.error .resourceExhaustion, maxPages) := by
  rw [ListAll, listGo_exhaust server maxPages hadv "" 0 [] (by omega)]
  simp

/-- C7 witness: with `maxListPages = 3` and a store always holding further
pages (as a 10-page store does for the first 3 requests), the walk fails
with resource exhaustion after exactly 3 page requests. -/
theorem C7_list_page_ceiling_witness :
    ListAll c7MockServer 3 = (Except.error ListErr.resourceExhaustion, 3) :=
  C7_list_page_ceiling c7MockServer 3
    (fun cur => ⟨{ entries := [], last := cur ++ "x", hasMore := true },
      rfl, rfl, append_x_ne cur⟩)
    (by decide)

/-- C2: for every `N ≥ 1` and `size ≥ 0`, the ranges computed by
`DownloadConcurrent` (`start = i*chunkSize`, `end = start+chunkSize-1`,
last end forced to `size-1`) partition `[0, size)` exactly: the first range
starts at 0, consecutive ranges are contiguous, the last range's end is
`size-1`, every byte of `[0, size)` lies in some range and in no two
distinct ranges. -/
theorem C2_downloadConcurrent_range_partition (size : Int) (n : Nat)
    (hs : 0 ≤ size) (hn : 1 ≤ n) :
    dcStart size n 0 = 0
    ∧ (∀ i : Nat, i + 1 < n → dcEnd size n i + 1 = dcStart size n (i + 1))
    ∧ dcEnd size n (n - 1) = size - 1
    ∧ (∀ b : Int, (0 ≤ b ∧ b < size) ↔
        ∃ i : Nat, i < n ∧ dcStart size n i ≤ b ∧ b ≤ dcEnd size n i)
    ∧ (∀ i j : Nat, i < j → j < n → ∀ b : Int,
        ¬(dcStart size n i ≤ b ∧ b ≤ dcEnd size n i
          ∧ dcStart size n j ≤ b ∧ b ≤ dcEnd size n j)) := by
  have hn0 : (0 : Int) < (n : Int) := by exact_mod_cast hn
  have hq0 : 0 ≤ size / (n : Int) := Int.ediv_nonneg hs (le_of_lt hn0)
  have hnq : (n : Int) * (size / (n : Int)) ≤ size := by
    have h1 := Int.ediv_add_emod size (n : Int)
    have h2 := Int.emod_nonneg size (ne_of_gt hn0)
    linarith
  refine ⟨?_, ?_, ?_, ?_, ?_⟩
  · simp [dcStart, dcChunkSize]
  · intro i hi
    have hi' : i ≠ n - 1 := by omega
    simp only [dcEnd, if_neg hi', dcStart, dcChunkSize]
    push_cast
    ring
  · simp [dcEnd]
  · intro b
    constructor
    · rintro ⟨hb0, hbs⟩
      rcases eq_or_lt_of_le hq0 with hq | hq
      · refine ⟨n - 1, by omega, ?_, ?_⟩
        · simp only [dcStart, dcChunkSize, ← hq, mul_zero]
          exact hb0
        · simp [dcEnd]
          omega
      · set q := size / (n : Int) with hqdef
        set j := b / q with hjdef
        have hj0 : 0 ≤ j := Int.ediv_nonneg hb0 (le_of_lt hq)
        have hjq : q * j ≤ b := by
          have h1 := Int.ediv_add_emod b q
          have h2 := Int.emod_nonneg b (ne_of_gt hq)
          linarith
        have hbj : b < q * j + q := by
          have h1 := Int.ediv_add_emod b q
          have h2 := Int.emod_lt_of_pos b hq
          linarith
        rcases lt_or_le j ((n : Int) - 1) with hcase | hcase
        · refine ⟨j.toNat, by omega, ?_, ?_⟩
          · simp only [dcStart, dcChunkSize, ← hqdef]
            rw [Int.toNat_of_nonneg hj0]
            linarith
          · have hne : j.toNat ≠ n - 1 := by omega
            simp only [dcEnd, if_neg hne, dcStart, dcChunkSize, ← hqdef]
            rw [Int.toNat_of_nonneg hj0]
            have hb1 := Int.lt_iff_add_one_le.mp hbj
            linarith
        · refine ⟨n - 1, by omega, ?_, ?_⟩
          · simp only [dcStart, dcChunkSize, ← hqdef]
            have hcast : ((n - 1 : Nat) : Int) = (n : Int) - 1 := by omega
            rw [hcast]
            have h5 : ((n : Int) - 1) * q ≤ j * q :=
              mul_le_mul_of_nonneg_right hcase (le_of_lt hq)
            linarith
          · simp [dcEnd]
            omega
    · rintro ⟨i, hin, hstart, hend⟩
      have hstart' : (i : Int) * (size / (n : Int)) ≤ b := hstart
      have hi0 : (0 : Int) ≤ (i : Int) * (size / (n : Int)) :=
        mul_nonneg (by positivity) hq0
      refine ⟨by linarith, ?_⟩
      by_cases hi : i = n - 1
      · rw [hi] at hend
        simp [dcEnd] at hend
        omega
      · simp only [dcEnd, if_neg hi, dcStart, dcChunkSize] at hend
        have hile : ((i : Int) + 1) ≤ (n : Int) := by omega
        have h6 : ((i : Int) + 1) * (size / (n : Int))
            ≤ (n : Int) * (size / (n : Int)) :=
          mul_le_mul_of_nonneg_right hile hq0
        nlinarith
  · intro i j hij hjn b
    rintro ⟨h1, h2, h3, h4⟩
    have hi' : i ≠ n - 1 := by omega
    simp only [dcEnd, if_neg hi', dcStart, dcChunkSize] at h2
    simp only [dcStart, dcChunkSize] at h3
    have hij' : ((i : Int) + 1) ≤ (j : Int) := by omega
    have h7 : ((i : Int) + 1) * (size / (n : Int))
        ≤ (j : Int) * (size / (n : Int)) :=
      mul_le_mul_of_nonneg_right hij' hq0
    nlinarith

/-- C2 witness: a 20 MiB file split into 2 ranges (both on the real
multi-chunk path: `size ≥ 2 × 5 MiB`). -/
theorem C2_downloadConcurrent_range_partition_witness :
    (0 : Int) ≤ 20971520 ∧ 1 ≤ 2
    ∧ (dcStart 20971520 2 0 = 0
      ∧ (∀ i : Nat, i + 1 < 2 → dcEnd 20971520 2 i + 1 = dcStart 20971520 2 (i + 1))
      ∧ dcEnd 20971520 2 (2 - 1) = 20971520 - 1
      ∧ (∀ b : Int, (0 ≤ b ∧ b < 20971520) ↔
          ∃ i : Nat, i < 2 ∧ dcStart 20971520 2 i ≤ b ∧ b ≤ dcEnd 20971520 2 i)
      ∧ (∀ i j : Nat, i < j → j < 2 → ∀ b : Int,
          ¬(dcStart 20971520 2 i ≤ b ∧ b ≤ dcEnd 20971520 2 i
            ∧ dcStart 20971520 2 j ≤ b ∧ b ≤ dcEnd 20971520 2 j))) :=
  ⟨by decide, by decide,
    C2_downloadConcurrent_range_partition 20971520 2 (by decide) (by decide)⟩

/-- The collapsing loop leaves no `//` in its result. -/
theorem containsDoubleSlash_collapseSlashes (p : List Char) :
    containsDoubleSlash (collapseSlashes p) = false := by
  rw [collapseSlashes]
  split
  · exact containsDoubleSlash_collapseSlashes (replaceDoubleSlash p)
  · simpa using ‹¬ containsDoubleSlash p = true›
termination_by p.length
decreasing_by exact replaceDoubleSlash_length_lt p ‹_›

/-- A replacement pass keeps a leading slash. -/
theorem replaceDoubleSlash_cons_slash (xs : List Char) :
    ∃ ys, replaceDoubleSlash ('/' :: xs) = '/' :: ys := by
  cases xs with
  | nil => exact ⟨[], rfl⟩
  | cons x rest =>
    by_cases h : x = '/'
    · subst h
      exact ⟨replaceDoubleSlash rest, by rw [replaceDoubleSlash, if_pos ⟨rfl, rfl⟩]⟩
    · exact ⟨replaceDoubleSlash (x :: rest),
        by rw [replaceDoubleSlash, if_neg (by simp [h])]⟩

/-- The collapsing loop keeps a leading slash. -/
theorem collapseSlashes_cons_slash (xs : List Char) :
    ∃ ys, collapseSlashes ('/' :: xs) = '/' :: ys := by
  rw [collapseSlashes]
  split
  · obtain ⟨ys, hy⟩ := replaceDoubleSlash_cons_slash xs
    rw [hy]
    exact collapseSlashes_cons_slash ys
  · exact ⟨xs, rfl⟩
termination_by xs.length
decreasing_by
  have hlt := replaceDoubleSlash_length_lt ('/' :: xs) ‹_›
  rw [hy] at hlt
  simp only [List.length_cons] at hlt
  omega

/-- A replacement pass introduces no character that was not in the string,
slashes aside. -/
theorem mem_replaceDoubleSlash :
    ∀ (p : List Char) (c : Char), c ∈ replaceDoubleSlash p → c ∈ p
  | [], c => by simp [replaceDoubleSlash]
  | [a], c => by simp [replaceDoubleSlash]
  | c1 :: c2 :: rest, c => by
    by_cases h : c1 = '/' ∧ c2 = '/'
    · rw [replaceDoubleSlash, if_pos h]
      intro hc
      rcases List.mem_cons.mp hc with h1 | h1
      · subst h1
        simp [List.mem_cons, h.1]
      · exact List.mem_cons_of_mem _ (List.mem_cons_of_mem _
          (mem_replaceDoubleSlash rest c h1))
    · rw [replaceDoubleSlash, if_neg h]
      intro hc
      rcases List.mem_cons.mp hc with h1 | h1
      · simp [List.mem_cons, h1]
      · exact List.mem_cons_of_mem _ (mem_replaceDoubleSlash (c2 :: rest) c h1)

/-- The collapsing loop introduces no new character. -/
theorem mem_collapseSlashes (p : List Char) (c : Char)
    (hc : c ∈ collapseSlashes p) : c ∈ p := by
  rw [collapseSlashes] at hc
  split at hc
  · exact mem_replaceDoubleSlash p c (mem_collapseSlashes (replaceDoubleSlash p) c hc)
  · exact hc
termination_by p.length
decreasing_by exact replaceDoubleSlash_length_lt p ‹_›

/-- The backslash pass removes every backslash. -/
theorem backslash_not_mem_replaceBackslash (p : List Char) :
    '\\' ∉ replaceBackslash p := by
  intro h
  simp only [replaceBackslash, List.mem_map] at h
  obtain ⟨a, _, hfa⟩ := h
  split at hfa
  · exact absurd hfa (by decide)
  · exact ‹¬ a = '\\'› hfa

/-- A string without `//` is a fixed point of the collapsing loop. -/
theorem collapseSlashes_eq_self (p : List Char)
    (h : containsDoubleSlash p = false) : collapseSlashes p = p := by
  rw [collapseSlashes, dif_neg (by simp [h])]

/-- A string without backslashes is a fixed point of the backslash pass. -/
theorem replaceBackslash_eq_self (p : List Char) (h : '\\' ∉ p) :
    replaceBackslash p = p := by
  induction p with
  | nil => rfl
  | cons a rest ih =>
    simp only [List.mem_cons, not_or] at h
    have h1 : ¬ a = '\\' := fun heq => h.1 heq.symm
    have h2 := ih h.2
    simp only [replaceBackslash, List.map_cons, if_neg h1] at h2 ⊢
    rw [h2]

/-- A string that already starts with a single slash, has no `//` and no
backslash is a fixed point of `NormalizePath`. -/
theorem NormalizePath_fixed (q : List Char)
    (hq : ∃ t, q = '/' :: t) (hnd : containsDoubleSlash q = false)
    (hnb : '\\' ∉ q) : NormalizePath q = q := by
  obtain ⟨t, rfl⟩ := hq
  rw [NormalizePath, replaceBackslash_eq_self _ hnb]
  cases t with
  | nil =>
    simp only [List.dropWhile]
    exact collapseSlashes_eq_self _ (by rfl)
  | cons c r =>
    have hc : ¬ c = '/' := by
      intro hc'
      rw [containsDoubleSlash, if_pos ⟨rfl, hc'⟩] at hnd
      cases hnd
    have hdrop : List.dropWhile (fun x => x == '/') ('/' :: c :: r) = c :: r := by
      rw [List.dropWhile_cons, if_pos (by decide), List.dropWhile_cons,
        if_neg (by simp [hc])]
    rw [hdrop]
    exact collapseSlashes_eq_self _ hnd

/-- C10: `NormalizePath` establishes the path invariant and is idempotent:
for every input the result starts with `/`, contains no `//` and no
backslash, and normalising again changes nothing. -/
theorem C10_normalizePath_idempotent_invariant (p : List Char) :
    (∃ t, NormalizePath p = '/' :: t)
    ∧ containsDoubleSlash (NormalizePath p) = false
    ∧ '\\' ∉ NormalizePath p
    ∧ NormalizePath (NormalizePath p) = NormalizePath p := by
  have hshape : ∃ t, NormalizePath p = '/' :: t := by
    rw [NormalizePath]
    exact collapseSlashes_cons_slash _
  have hnd : containsDoubleSlash (NormalizePath p) = false := by
    rw [NormalizePath]
    exact containsDoubleSlash_collapseSlashes _
  have hnb : '\\' ∉ NormalizePath p := by
    rw [NormalizePath]
    intro hmem
    have h1 := mem_collapseSlashes _ _ hmem
    rcases List.mem_cons.mp h1 with h2 | h2
    · exact absurd h2 (by decide)
    · exact backslash_not_mem_replaceBackslash p
        ((List.dropWhile_sublist _).subset h2)
  exact ⟨hshape, hnd, hnb, NormalizePath_fixed _ hshape hnd hnb⟩

end SeaweedSdk
